import Mathlib

/-!
Verification of the `agill17/pkg` repository: a GitOps updater that patches one
key inside a YAML file held in a remote repository, commits the change
(optionally on a freshly generated branch) and optionally opens a pull request.

`Syaml` is a shallow embedding of `syaml.SetBytes` (src/syaml/yaml.go), which
composes `yaml.YAMLToJSON`, `sjson.SetBytes` and `yaml.JSONToYAML`.  Those three
library collaborators are modelled over the plain-scalar nested-mapping subset
of YAML: documents are maps from plain keys to plain scalar strings or nested
maps, rendered with two-space indentation; `YAMLToJSON` canonicalises (Go maps
sort keys and collapse duplicates) and `JSONToYAML` re-serialises that
canonical structure.

`Updater` is a shallow embedding of `(*Updater).UpdateYAML`
(src/pkg/updater/update.go) together with `createBranchIfNecessary` and
`createPRIfNecessary`.  The injected `client.GitClient` collaborator is a
record of result-valued operations; execution is modelled as the ordered list
of collaborator invocations (each tagged with whether it succeeded) together
with the returned value, so claims about side-effect ordering, error wrapping
and absence of retries are statements about the produced trace.
-/

namespace Syaml

/-- Structured values as produced by `yaml.YAMLToJSON`: a plain scalar string
or an object with string keys.  This is the subset of JSON that the claims
exercise; the Go core only ever supplies string values. -/
inductive Json where
  | str (s : String)
  | obj (fields : List (String × Json))

/-- Nested singleton object built by `sjson` when it creates missing
intermediate path elements: `mkNested [a, b] v = {a: {b: v}}`. -/
def mkNested : List String → String → Json
  | [], v => .str v
  | k :: ks, v => .obj [(k, mkNested ks v)]

/-- Lexicographic code-point comparison of key character lists, modelling the
byte-wise UTF-8 ordering that Go applies to map keys when serialising (for
code points the two orders agree).  Defined structurally so that it reduces
inside the kernel. -/
def ltKey : List Char → List Char → Bool
  | [], [] => false
  | [], _ :: _ => true
  | _ :: _, [] => false
  | a :: as, b :: bs =>
    if a < b then true
    else if b < a then false
    else ltKey as bs

/-- Key order on strings. -/
def strLt (a b : String) : Bool := ltKey a.data b.data

/-- One level of `sjson`-style set inside an object's field list: replace the
value when the key is present, otherwise insert the freshly built subtree.
Insertion is at the sorted position; composed with the key-sorting
serialisation of `yaml.JSONToYAML` this yields the same output bytes as
`sjson`'s append-at-end insertion. -/
def setFields (go : Json → Json) (sub : Json) (k : String) :
    List (String × Json) → List (String × Json)
  | [] => [(k, sub)]
  | (k1, t1) :: fs =>
    if k = k1 then (k1, go t1) :: fs
    else if strLt k k1 then (k, sub) :: (k1, t1) :: fs
    else (k1, t1) :: setFields go sub k fs

/-- Model of `sjson.SetBytes` at the structured level: walk the dotted path,
replacing the value at its end; non-object intermediates are overwritten with
freshly created objects, as `sjson` does. -/
def jsonSet : Json → List String → String → Json
  | _, [], v => .str v
  | .str _, k :: ks, v => .obj [(k, mkNested ks v)]
  | .obj fs, k :: ks, v =>
    .obj (setFields (fun t => jsonSet t ks v) (mkNested ks v) k fs)

/-- Split a path on the `.` character, exactly as `strings.Split`/`sjson`
path syntax does (the model ignores `sjson`'s backslash escaping, which the
repository never uses). -/
def splitDotsL : List Char → List (List Char)
  | [] => [[]]
  | c :: cs =>
    if c = '.' then [] :: splitDotsL cs
    else
      match splitDotsL cs with
      | [] => [[c]]
      | s :: ss => (c :: s) :: ss

/-- Components of a dotted `sjson` path. -/
def pathComponents (p : String) : List String := (splitDotsL p.data).map String.mk

/-- Sorted insertion of a parsed binding into the already-parsed later
bindings of the same block, modelling the Go `map[string]interface{}` round
trip inside `yaml.YAMLToJSON`: keys end up sorted, and a duplicate key keeps
the existing entry (the binding appearing last in the document wins, as in
go-yaml). -/
def insertBinding (k : String) (t : Json) :
    List (String × Json) → List (String × Json)
  | [] => [(k, t)]
  | (k1, t1) :: fs =>
    if k = k1 then (k1, t1) :: fs
    else if strLt k k1 then (k, t) :: (k1, t1) :: fs
    else (k1, t1) :: insertBinding k t fs

/-- `n` spaces of indentation. -/
def spacesL (n : Nat) : List Char := List.replicate n ' '

mutual
/-- Lines produced by `yaml.Marshal` for one `key: value` binding at a given
indentation: scalars on one line, nested maps as a `key:` header followed by
the block indented two further spaces. -/
def jsonLines : Nat → String → Json → List (List Char)
  | indent, k, .str s => [spacesL indent ++ k.data ++ ':' :: ' ' :: s.data]
  | indent, k, .obj gs => (spacesL indent ++ k.data ++ [':']) :: fieldLines (indent + 2) gs
termination_by _ _ t => sizeOf t

/-- Lines produced for a whole field list. -/
def fieldLines : Nat → List (String × Json) → List (List Char)
  | _, [] => []
  | indent, (k, t) :: fs => jsonLines indent k t ++ fieldLines indent fs
termination_by _ fs => sizeOf fs
end

/-- Fuelled form of `jsonLines`, used by the executable serialiser; it agrees
with `jsonLines` whenever the fuel bounds the size of the value. -/
def jsonLinesF : Nat → Nat → String → Json → List (List Char)
  | 0, _, _, _ => []
  | _ + 1, indent, k, .str s => [spacesL indent ++ k.data ++ ':' :: ' ' :: s.data]
  | fuel + 1, indent, k, .obj gs =>
    (spacesL indent ++ k.data ++ [':']) ::
      gs.foldr (fun p acc => jsonLinesF fuel (indent + 2) p.1 p.2 ++ acc) []

/-- Fuelled form of `fieldLines`. -/
def fieldLinesF (fuel indent : Nat) (fs : List (String × Json)) : List (List Char) :=
  fs.foldr (fun p acc => jsonLinesF fuel indent p.1 p.2 ++ acc) []

/-- Join lines, terminating every line with a newline as `yaml.Marshal` does. -/
def joinLines : List (List Char) → List Char
  | [] => []
  | l :: ls => l ++ '\n' :: joinLines ls

/-- Model of `yaml.JSONToYAML`'s serialisation for the embedded subset. -/
def renderDoc : Json → String
  | .str s => String.mk (s.data ++ ['\n'])
  | .obj fs => String.mk (joinLines (fieldLines 0 fs))

/-- Executable form of `renderDoc`; it agrees with `renderDoc` whenever the
fuel exceeds the nesting depth of the value. -/
def renderDocF (fuel : Nat) : Json → String
  | .str s => String.mk (s.data ++ ['\n'])
  | .obj fs => String.mk (joinLines (fieldLinesF fuel 0 fs))

/-- Split a character stream into newline-terminated lines; a trailing
fragment without a final newline is rejected.  `acc` holds the current line,
reversed. -/
def splitLinesGo : List Char → List Char → Option (List (List Char))
  | acc, [] => if acc.isEmpty then some [] else none
  | acc, c :: cs =>
    if c = '\n' then (splitLinesGo [] cs).map (acc.reverse :: ·)
    else splitLinesGo (c :: acc) cs

/-- Lines of a document. -/
def splitLines (cs : List Char) : Option (List (List Char)) := splitLinesGo [] cs

/-- Number of leading spaces of a line. -/
def leadingSpaces : List Char → Nat
  | ' ' :: cs => leadingSpaces cs + 1
  | _ => 0

/-- Split a line body at its first colon. -/
def splitColon : List Char → Option (List Char × List Char)
  | [] => none
  | c :: cs =>
    if c = ':' then some ([], cs)
    else (splitColon cs).map (fun p => (c :: p.1, p.2))

/-- Fuelled recursive-descent parser for a block of bindings at an exact
indentation, modelling the YAML mapping parser underneath `yaml.YAMLToJSON`
on the embedded subset: `key: value` scalar lines and `key:` headers whose
block is indented exactly two further spaces.  Stops (without consuming) at
the first line whose indentation differs.  Returns the bindings in document
order together with the unconsumed lines. -/
def parseBlockF : Nat → Nat → List (List Char) → Option (List (String × Json) × List (List Char))
  | 0, _, _ => none
  | _ + 1, _, [] => some ([], [])
  | fuel + 1, indent, line :: rest =>
    if leadingSpaces line = indent then
      match splitColon (line.drop indent) with
      | none => none
      | some (k, []) =>
        match parseBlockF fuel (indent + 2) rest with
        | none => none
        | some ([], _) => none
        | some (s1 :: subs, rem) =>
          match parseBlockF fuel indent rem with
          | none => none
          | some (fs, rem2) => some (insertBinding (String.mk k) (Json.obj (s1 :: subs)) fs, rem2)
      | some (k, ' ' :: v) =>
        match parseBlockF fuel indent rest with
        | none => none
        | some (fs, rem2) => some (insertBinding (String.mk k) (Json.str (String.mk v)) fs, rem2)
      | some (_, _) => none
    else some ([], line :: rest)

/-- Model of `yaml.YAMLToJSON` on the embedded subset: parse the mapping
document; the result is canonical (sorted, duplicate-free keys) because every
binding is inserted through `insertBinding`. -/
def parseDoc (y : String) : Option Json :=
  match splitLines y.data with
  | none => none
  | some lines =>
    match parseBlockF (lines.length + 1) 0 lines with
    | none => none
    | some (fs, rem) =>
      if rem = [] then
        if fs.isEmpty then none else some (.obj fs)
      else none

/-- Model of `syaml.SetBytes` (src/syaml/yaml.go): convert YAML to the
structured form, set the dotted path with `sjson`, and serialise back to
YAML.  `none` models the error return for input outside the parser's
domain. -/
def SetBytes (y path value : String) : Option String :=
  (parseDoc y).map (fun t =>
    renderDocF (y.data.length + path.data.length + 2)
      (jsonSet t (pathComponents path) value))

/-- A key that the plain-scalar serialisation round-trips: it contains no
colon and no newline and does not begin with a space (the real library
quote-escapes keys beyond this subset). -/
def okKeyB (k : String) : Bool :=
  decide (':' ∉ k.data) && decide ('\n' ∉ k.data) && decide (k.data.head? ≠ some ' ')

/-- A scalar that the plain-scalar serialisation round-trips: no newline. -/
def okValB (s : String) : Bool := decide ('\n' ∉ s.data)

/-- Keys of a field list are strictly sorted. -/
def sortedKeysB : List (String × Json) → Bool
  | [] => true
  | [_] => true
  | a :: b :: fs => strLt a.1 b.1 && sortedKeysB (b :: fs)

mutual
/-- Canonical structured documents: plain keys and scalars, strictly sorted
keys, non-empty objects.  `parseDoc` only produces canonical documents and
`renderDoc` inverts `parseDoc` on them. -/
def canonicalJ : Json → Bool
  | .str s => okValB s
  | .obj fs => !fs.isEmpty && sortedKeysB fs && canonicalFs fs
termination_by t => sizeOf t

/-- `canonicalJ` plus key plainness for every binding of a field list. -/
def canonicalFs : List (String × Json) → Bool
  | [] => true
  | (k, t) :: fs => okKeyB k && canonicalJ t && canonicalFs fs
termination_by fs => sizeOf fs
end

/-- Every component of a dotted path is a plain key. -/
def pathOK (p : String) : Bool := (pathComponents p).all okKeyB

mutual
/-- Nesting depth of a structured value: scalars have depth zero, an object
is one deeper than its deepest binding.  Used to relate the fuelled
serialiser to its specification. -/
def jdepth : Json → Nat
  | .str _ => 0
  | .obj fs => fdepth fs + 1
termination_by t => sizeOf t

/-- Depth of the deepest binding of a field list. -/
def fdepth : List (String × Json) → Nat
  | [] => 0
  | (_, t) :: fs => max (jdepth t) (fdepth fs)
termination_by fs => sizeOf fs
end

/-- The lines following a rendered block either end the document or dedent
below the block's indentation, so the block parser stops exactly there. -/
def restOK (indent : Nat) : List (List Char) → Prop
  | [] => True
  | l :: _ => leadingSpaces l < indent

/-- `k` is below the first key of the field list (trivially true for an empty
list); the head position of a sorted field list. -/
def ltHead (k : String) : List (String × Json) → Prop
  | [] => True
  | (k1, _) :: _ => strLt k k1 = true

end Syaml

namespace Updater

/-- `client.FileContents`: the fetched file bytes together with the blob SHA
used as the optimistic-concurrency token. -/
structure FileContents where
  data : String
  sha : String
deriving DecidableEq

/-- `updater.PullRequestInput`: configuration for the pull request. -/
structure PullRequestInput where
  title : String
  body : String
deriving DecidableEq

/-- `scm.PullRequestInput`: the request sent to `CreatePullRequest`. -/
structure ScmPullRequestInput where
  title : String
  body : String
  head : String
  base : String
deriving DecidableEq

/-- `scm.PullRequest`, restricted to the fields the core reports. -/
structure ScmPullRequest where
  number : Nat
  link : String
deriving DecidableEq

/-- `updater.Input` (src/pkg/updater/update.go). -/
structure Input where
  repo : String
  filename : String
  key : String
  newValue : String
  branch : String
  branchGenerateName : String
  commitMessage : String
  pullRequest : PullRequestInput
deriving DecidableEq

/-- One invocation of a `client.GitClient` operation, with its arguments. -/
inductive Call where
  | getFile (repo branch filename : String)
  | getBranchHead (repo branch : String)
  | createBranch (repo name ref : String)
  | updateFile (repo branch filename message sha content : String)
  | createPullRequest (repo : String) (pr : ScmPullRequestInput)
deriving DecidableEq

/-- A trace entry: the invocation together with whether it succeeded. -/
abbrev Event := Call × Bool

/-- The injected `client.GitClient` collaborator, as a record of synchronous
result-valued operations; errors are their messages (`err.Error()`). -/
structure GitClient where
  getFile : String → String → String → Except String FileContents
  getBranchHead : String → String → Except String String
  createBranch : String → String → String → Except String Unit
  updateFile : String → String → String → String → String → String → Except String Unit
  createPullRequest : String → ScmPullRequestInput → Except String ScmPullRequest

/-- `(*Updater).createBranchIfNecessary`: with an empty `BranchGenerateName`
the source branch is reused without any client call; otherwise a branch named
by the generator is created from the source ref, wrapping failures with
`"failed to create branch: "`. -/
def createBranchIfNecessary (c : GitClient) (gen : String → String) (input : Input)
    (sourceRef : String) : List Event × Except String String :=
  if input.branchGenerateName = "" then ([], .ok input.branch)
  else
    let newBranchName := gen input.branchGenerateName
    match c.createBranch input.repo newBranchName sourceRef with
    | .error e =>
      ([(.createBranch input.repo newBranchName sourceRef, false)],
        .error ("failed to create branch: " ++ e))
    | .ok _ =>
      ([(.createBranch input.repo newBranchName sourceRef, true)], .ok newBranchName)

/-- `(*Updater).createPRIfNecessary`: no pull request when the target branch
is the source branch; otherwise create one with `Head` the target branch and
`Base` the source branch, wrapping failures with
`"failed to create a pull request: "`. -/
def createPRIfNecessary (c : GitClient) (input : Input) (newBranchName : String) :
    List Event × Except String (Option ScmPullRequest) :=
  if input.branch = newBranchName then ([], .ok none)
  else
    let prInput : ScmPullRequestInput :=
      ⟨input.pullRequest.title, input.pullRequest.body, newBranchName, input.branch⟩
    match c.createPullRequest input.repo prInput with
    | .error e =>
      ([(.createPullRequest input.repo prInput, false)],
        .error ("failed to create a pull request: " ++ e))
    | .ok pr => ([(.createPullRequest input.repo prInput, true)], .ok (some pr))

/-- `(*Updater).UpdateYAML` (src/pkg/updater/update.go): fetch the file, patch
it with `syaml.SetBytes`, resolve the source branch head, optionally create a
branch, commit the update with the fetched SHA as precondition, and optionally
open a pull request.  The result pairs the ordered trace of client
invocations with the returned value.  The fetch error is returned unchanged;
`"failed to get branch head: "`, `"failed to update file: "` and the branch /
pull-request wrappers reproduce the `fmt.Errorf` contexts.  The fixed patch
failure message stands in for the opaque error of the YAML library, which the
code also returns unchanged. -/
def UpdateYAML (c : GitClient) (gen : String → String) (input : Input) :
    List Event × Except String (Option ScmPullRequest) :=
  match c.getFile input.repo input.branch input.filename with
  | .error e => ([(.getFile input.repo input.branch input.filename, false)], .error e)
  | .ok current =>
    let t0 : List Event := [(.getFile input.repo input.branch input.filename, true)]
    match Syaml.SetBytes current.data input.key input.newValue with
    | none => (t0, .error "failed to set value in YAML")
    | some updated =>
      match c.getBranchHead input.repo input.branch with
      | .error e =>
        (t0 ++ [(.getBranchHead input.repo input.branch, false)],
          .error ("failed to get branch head: " ++ e))
      | .ok branchRef =>
        let t1 := t0 ++ [(.getBranchHead input.repo input.branch, true)]
        match createBranchIfNecessary c gen input branchRef with
        | (t2, .error e) => (t1 ++ t2, .error e)
        | (t2, .ok newBranchName) =>
          match c.updateFile input.repo newBranchName input.filename
              input.commitMessage current.sha updated with
          | .error e =>
            (t1 ++ t2 ++ [(.updateFile input.repo newBranchName input.filename
                input.commitMessage current.sha updated, false)],
              .error ("failed to update file: " ++ e))
          | .ok _ =>
            let t3 := t1 ++ t2 ++ [(.updateFile input.repo newBranchName input.filename
                input.commitMessage current.sha updated, true)]
            match createPRIfNecessary c input newBranchName with
            | (t4, r4) => (t3 ++ t4, r4)

/-- The collaborator operation a call invokes, with arguments forgotten. -/
inductive CallKind where
  | getFile | getBranchHead | createBranch | updateFile | createPullRequest
deriving DecidableEq

/-- Kind of a call. -/
def kindOf : Call → CallKind
  | .getFile .. => .getFile
  | .getBranchHead .. => .getBranchHead
  | .createBranch .. => .createBranch
  | .updateFile .. => .updateFile
  | .createPullRequest .. => .createPullRequest

/-- The three remote side effects named by the specification. -/
inductive EffectKind where
  | branchCreated | fileCommitted | pullRequestCreated
deriving DecidableEq

/-- The side effect a successful call produces, if any. -/
def effectOf : Call → Option EffectKind
  | .createBranch .. => some .branchCreated
  | .updateFile .. => some .fileCommitted
  | .createPullRequest .. => some .pullRequestCreated
  | _ => none

/-- Side effects that actually occurred in a trace: mutating calls that
succeeded, in invocation order. -/
def effects (t : List Event) : List EffectKind :=
  t.filterMap fun e => if e.2 then effectOf e.1 else none

/-- How many times a trace invokes a given collaborator operation,
successfully or not. -/
def invocations (t : List Event) (k : CallKind) : Nat :=
  (t.filter fun e => kindOf e.1 = k).length

/-- The SHA the repository's tests use for the branch head. -/
def testSHA : String := "980a0d5f19a64b4b30a87d4206aade58726b60e3"

/-- The YAML document the repository's tests store in the mock client. -/
def testDoc : String := "test:\n  image: old-image\n"

/-- An all-succeeding client serving `testDoc`, mirroring the mock client of
the repository's tests. -/
def okClient : GitClient where
  getFile := fun _ _ _ => .ok ⟨testDoc, testSHA⟩
  getBranchHead := fun _ _ => .ok testSHA
  createBranch := fun _ _ _ => .ok ()
  updateFile := fun _ _ _ _ _ _ => .ok ()
  createPullRequest := fun _ _ => .ok ⟨1, "https://example.com/pull-request/1"⟩

/-- `okClient` with a failing `GetFile`, as in `TestUpdaterWithMissingFile`. -/
def getFileErrClient : GitClient :=
  { okClient with getFile := fun _ _ _ => .error "missing file" }

/-- `okClient` with a failing `CreateBranch`, as in
`TestUpdaterWithBranchCreationFailure`. -/
def createBranchErrClient : GitClient :=
  { okClient with createBranch := fun _ _ _ => .error "can't create branch" }

/-- `okClient` with a failing `UpdateFile`, as in
`TestUpdaterWithUpdateFileFailure`. -/
def updateFileErrClient : GitClient :=
  { okClient with updateFile := fun _ _ _ _ _ _ => .error "can't update file" }

/-- `okClient` with a failing `CreatePullRequest`, as in
`TestUpdaterWithCreatePullRequestFailure`. -/
def createPRErrClient : GitClient :=
  { okClient with createPullRequest := fun _ _ => .error "can't create pull-request" }

/-- The stub name generator of the repository's tests: append `"a"`. -/
def stubGen : String → String := fun p => p ++ "a"

/-- A degenerate but legal generator returning the fixed name `"main"`. -/
def constMainGen : String → String := fun _ => "main"

/-- The `Input` built by `makeInput` in the repository's tests. -/
def testInput : Input :=
  ⟨"testorg/testrepo", "environments/test/services/service-a/test.yaml",
    "test.image", "test/my-test-image", "main", "test-branch-",
    "just a test commit", ⟨"test pull-request", "test pull-request body"⟩⟩

/-- `testInput` with an empty `BranchGenerateName`: direct-commit mode. -/
def directInput : Input := { testInput with branchGenerateName := "" }

/-- `testInput` with a generate-name prefix for which `constMainGen` produces
exactly the source branch name. -/
def collidingInput : Input := { testInput with branchGenerateName := "update-" }

end Updater

namespace Updater

/-- C2: with an empty `BranchGenerateName` and all collaborators succeeding,
`UpdateYAML` makes no branch-creation and no pull-request call, commits the
patched bytes directly to `Input.Branch` with `Input.CommitMessage` and the
SHA captured by the initial `GetFile` as precondition, and returns no pull
request and no error. -/
theorem UpdateYAML_direct_commit (c : GitClient) (gen : String → String) (input : Input)
    (f : FileContents) (u ref : String)
    (hb : input.branchGenerateName = "")
    (hgf : c.getFile input.repo input.branch input.filename = .ok f)
    (hsb : Syaml.SetBytes f.data input.key input.newValue = some u)
    (hbh : c.getBranchHead input.repo input.branch = .ok ref)
    (huf : c.updateFile input.repo input.branch input.filename
      input.commitMessage f.sha u = .ok ()) :
    UpdateYAML c gen input =
      ([(.getFile input.repo input.branch input.filename, true),
        (.getBranchHead input.repo input.branch, true),
        (.updateFile input.repo input.branch input.filename input.commitMessage f.sha u, true)],
       .ok none) := by
  simp [UpdateYAML, hgf, hsb, hbh, createBranchIfNecessary, hb, huf, createPRIfNecessary]

/-- C2 witness: the direct-commit theorem evaluated on the repository's test
fixture with `BranchGenerateName` emptied. -/
theorem UpdateYAML_direct_commit_witness :
    UpdateYAML okClient stubGen directInput =
      ([(.getFile directInput.repo directInput.branch directInput.filename, true),
        (.getBranchHead directInput.repo directInput.branch, true),
        (.updateFile directInput.repo directInput.branch directInput.filename
          directInput.commitMessage testSHA "test:\n  image: test/my-test-image\n", true)],
       .ok none) :=
  UpdateYAML_direct_commit okClient stubGen directInput ⟨testDoc, testSHA⟩
    "test:\n  image: test/my-test-image\n" testSHA rfl rfl rfl rfl rfl

/-- C4: if the initial `GetFile` fails, `UpdateYAML` returns the collaborator
error unchanged (not wrapped) and invokes no further collaborator operation:
no branch is created, no file is committed, no pull request is created. -/
theorem UpdateYAML_getFile_error (c : GitClient) (gen : String → String) (input : Input)
    (e : String)
    (hgf : c.getFile input.repo input.branch input.filename = .error e) :
    UpdateYAML c gen input =
      ([(.getFile input.repo input.branch input.filename, false)], .error e) := by
  simp [UpdateYAML, hgf]

/-- C4 witness: the read-failure theorem evaluated on the fixture of
`TestUpdaterWithMissingFile`. -/
theorem UpdateYAML_getFile_error_witness :
    UpdateYAML getFileErrClient stubGen testInput =
      ([(.getFile testInput.repo testInput.branch testInput.filename, false)],
       .error "missing file") :=
  UpdateYAML_getFile_error getFileErrClient stubGen testInput "missing file" rfl

/-- C5: if `CreateBranch` fails on the generate-name path, `UpdateYAML`
performs no file update and creates no pull request, and returns the error
message `"failed to create branch: "` followed by the collaborator's
message. -/
theorem UpdateYAML_createBranch_error (c : GitClient) (gen : String → String) (input : Input)
    (f : FileContents) (u ref e : String)
    (hb : input.branchGenerateName ≠ "")
    (hgf : c.getFile input.repo input.branch input.filename = .ok f)
    (hsb : Syaml.SetBytes f.data input.key input.newValue = some u)
    (hbh : c.getBranchHead input.repo input.branch = .ok ref)
    (hcb : c.createBranch input.repo (gen input.branchGenerateName) ref = .error e) :
    UpdateYAML c gen input =
      ([(.getFile input.repo input.branch input.filename, true),
        (.getBranchHead input.repo input.branch, true),
        (.createBranch input.repo (gen input.branchGenerateName) ref, false)],
       .error ("failed to create branch: " ++ e)) := by
  simp [UpdateYAML, createBranchIfNecessary, hgf, hsb, hbh, hb, hcb]

/-- C5 witness: the branch-creation-failure theorem evaluated on the fixture
of `TestUpdaterWithBranchCreationFailure`; the message is exactly
`"failed to create branch: can't create branch"`. -/
theorem UpdateYAML_createBranch_error_witness :
    UpdateYAML createBranchErrClient stubGen testInput =
      ([(.getFile testInput.repo testInput.branch testInput.filename, true),
        (.getBranchHead testInput.repo testInput.branch, true),
        (.createBranch testInput.repo "test-branch-a" testSHA, false)],
       .error "failed to create branch: can't create branch") :=
  UpdateYAML_createBranch_error createBranchErrClient stubGen testInput
    ⟨testDoc, testSHA⟩ "test:\n  image: test/my-test-image\n" testSHA
    "can't create branch" (by decide) rfl rfl rfl rfl

/-- C6: if `UpdateFile` fails after a branch was created, the created branch
remains (the trace holds the successful `CreateBranch` and no compensating
call), no pull request is created, and the returned message is exactly
`"failed to update file: "` followed by the collaborator's message. -/
theorem UpdateYAML_updateFile_error (c : GitClient) (gen : String → String) (input : Input)
    (f : FileContents) (u ref e : String)
    (hb : input.branchGenerateName ≠ "")
    (hgf : c.getFile input.repo input.branch input.filename = .ok f)
    (hsb : Syaml.SetBytes f.data input.key input.newValue = some u)
    (hbh : c.getBranchHead input.repo input.branch = .ok ref)
    (hcb : c.createBranch input.repo (gen input.branchGenerateName) ref = .ok ())
    (huf : c.updateFile input.repo (gen input.branchGenerateName) input.filename
      input.commitMessage f.sha u = .error e) :
    UpdateYAML c gen input =
      ([(.getFile input.repo input.branch input.filename, true),
        (.getBranchHead input.repo input.branch, true),
        (.createBranch input.repo (gen input.branchGenerateName) ref, true),
        (.updateFile input.repo (gen input.branchGenerateName) input.filename
          input.commitMessage f.sha u, false)],
       .error ("failed to update file: " ++ e)) := by
  simp [UpdateYAML, createBranchIfNecessary, hgf, hsb, hbh, hb, hcb, huf]

/-- C6 witness: the commit-failure theorem evaluated on the fixture of
`TestUpdaterWithUpdateFileFailure`. -/
theorem UpdateYAML_updateFile_error_witness :
    UpdateYAML updateFileErrClient stubGen testInput =
      ([(.getFile testInput.repo testInput.branch testInput.filename, true),
        (.getBranchHead testInput.repo testInput.branch, true),
        (.createBranch testInput.repo "test-branch-a" testSHA, true),
        (.updateFile testInput.repo "test-branch-a" testInput.filename
          testInput.commitMessage testSHA "test:\n  image: test/my-test-image\n", false)],
       .error "failed to update file: can't update file") :=
  UpdateYAML_updateFile_error updateFileErrClient stubGen testInput
    ⟨testDoc, testSHA⟩ "test:\n  image: test/my-test-image\n" testSHA
    "can't update file" (by decide) rfl rfl rfl rfl rfl

/-- C7: if `CreatePullRequest` fails after the commit succeeded, the created
branch and the committed update remain (the trace holds their successful
calls and no compensating call), and the returned message is exactly
`"failed to create a pull request: "` followed by the collaborator's
message. -/
theorem UpdateYAML_createPullRequest_error (c : GitClient) (gen : String → String)
    (input : Input) (f : FileContents) (u ref e : String)
    (hb : input.branchGenerateName ≠ "")
    (hne : input.branch ≠ gen input.branchGenerateName)
    (hgf : c.getFile input.repo input.branch input.filename = .ok f)
    (hsb : Syaml.SetBytes f.data input.key input.newValue = some u)
    (hbh : c.getBranchHead input.repo input.branch = .ok ref)
    (hcb : c.createBranch input.repo (gen input.branchGenerateName) ref = .ok ())
    (huf : c.updateFile input.repo (gen input.branchGenerateName) input.filename
      input.commitMessage f.sha u = .ok ())
    (hcp : c.createPullRequest input.repo
      ⟨input.pullRequest.title, input.pullRequest.body,
        gen input.branchGenerateName, input.branch⟩ = .error e) :
    UpdateYAML c gen input =
      ([(.getFile input.repo input.branch input.filename, true),
        (.getBranchHead input.repo input.branch, true),
        (.createBranch input.repo (gen input.branchGenerateName) ref, true),
        (.updateFile input.repo (gen input.branchGenerateName) input.filename
          input.commitMessage f.sha u, true),
        (.createPullRequest input.repo
          ⟨input.pullRequest.title, input.pullRequest.body,
            gen input.branchGenerateName, input.branch⟩, false)],
       .error ("failed to create a pull request: " ++ e)) := by
  simp [UpdateYAML, createBranchIfNecessary, createPRIfNecessary,
    hgf, hsb, hbh, hb, hne, hcb, huf, hcp]

/-- C7 witness: the pull-request-failure theorem evaluated on the fixture of
`TestUpdaterWithCreatePullRequestFailure`. -/
theorem UpdateYAML_createPullRequest_error_witness :
    UpdateYAML createPRErrClient stubGen testInput =
      ([(.getFile testInput.repo testInput.branch testInput.filename, true),
        (.getBranchHead testInput.repo testInput.branch, true),
        (.createBranch testInput.repo "test-branch-a" testSHA, true),
        (.updateFile testInput.repo "test-branch-a" testInput.filename
          testInput.commitMessage testSHA "test:\n  image: test/my-test-image\n", true),
        (.createPullRequest testInput.repo
          ⟨testInput.pullRequest.title, testInput.pullRequest.body,
            "test-branch-a", testInput.branch⟩, false)],
       .error "failed to create a pull request: can't create pull-request") :=
  UpdateYAML_createPullRequest_error createPRErrClient stubGen testInput
    ⟨testDoc, testSHA⟩ "test:\n  image: test/my-test-image\n" testSHA
    "can't create pull-request" (by decide) (by decide) rfl rfl rfl rfl rfl rfl

end Updater

namespace Updater

/-- C1 (amended): with a non-empty `BranchGenerateName`, a generated name
that differs from `Input.Branch`, and all collaborators succeeding,
`UpdateYAML` creates exactly one branch, named
`gen Input.BranchGenerateName` and based at the resolved head ref of
`Input.Branch`, commits the patched file to that branch, creates exactly one
pull request with `Head` the new branch, `Base` equal to `Input.Branch` and
title and body from `Input.PullRequest`, and returns that pull request. -/
theorem UpdateYAML_generate_branch_and_pr (c : GitClient) (gen : String → String)
    (input : Input) (f : FileContents) (u ref : String) (pr : ScmPullRequest)
    (hb : input.branchGenerateName ≠ "")
    (hne : input.branch ≠ gen input.branchGenerateName)
    (hgf : c.getFile input.repo input.branch input.filename = .ok f)
    (hsb : Syaml.SetBytes f.data input.key input.newValue = some u)
    (hbh : c.getBranchHead input.repo input.branch = .ok ref)
    (hcb : c.createBranch input.repo (gen input.branchGenerateName) ref = .ok ())
    (huf : c.updateFile input.repo (gen input.branchGenerateName) input.filename
      input.commitMessage f.sha u = .ok ())
    (hcp : c.createPullRequest input.repo
      ⟨input.pullRequest.title, input.pullRequest.body,
        gen input.branchGenerateName, input.branch⟩ = .ok pr) :
    UpdateYAML c gen input =
      ([(.getFile input.repo input.branch input.filename, true),
        (.getBranchHead input.repo input.branch, true),
        (.createBranch input.repo (gen input.branchGenerateName) ref, true),
        (.updateFile input.repo (gen input.branchGenerateName) input.filename
          input.commitMessage f.sha u, true),
        (.createPullRequest input.repo
          ⟨input.pullRequest.title, input.pullRequest.body,
            gen input.branchGenerateName, input.branch⟩, true)],
       .ok (some pr)) := by
  simp [UpdateYAML, createBranchIfNecessary, createPRIfNecessary,
    hgf, hsb, hbh, hb, hne, hcb, huf, hcp]

/-- C1 witness: the generate-branch theorem evaluated on the repository's
`TestUpdate` fixture (stub generator appending `"a"`). -/
theorem UpdateYAML_generate_branch_and_pr_witness :
    UpdateYAML okClient stubGen testInput =
      ([(.getFile testInput.repo testInput.branch testInput.filename, true),
        (.getBranchHead testInput.repo testInput.branch, true),
        (.createBranch testInput.repo "test-branch-a" testSHA, true),
        (.updateFile testInput.repo "test-branch-a" testInput.filename
          testInput.commitMessage testSHA "test:\n  image: test/my-test-image\n", true),
        (.createPullRequest testInput.repo
          ⟨testInput.pullRequest.title, testInput.pullRequest.body,
            "test-branch-a", testInput.branch⟩, true)],
       .ok (some ⟨1, "https://example.com/pull-request/1"⟩)) :=
  UpdateYAML_generate_branch_and_pr okClient stubGen testInput
    ⟨testDoc, testSHA⟩ "test:\n  image: test/my-test-image\n" testSHA
    ⟨1, "https://example.com/pull-request/1"⟩
    (by decide) (by decide) rfl rfl rfl rfl rfl rfl

/-- C1 counterexample: with the legal generator `constMainGen` the generated
branch name equals `Input.Branch`; every collaborator call succeeds, a branch
is created and the file committed, yet no pull request is created and `nil`
is returned — refuting the unconditional claim that a pull request is always
created on the non-empty `BranchGenerateName` path. -/
theorem UpdateYAML_generate_no_pr_cex :
    collidingInput.branchGenerateName ≠ "" ∧
    (UpdateYAML okClient constMainGen collidingInput).2 = .ok none ∧
    invocations (UpdateYAML okClient constMainGen collidingInput).1 .createPullRequest = 0 :=
  ⟨by decide, rfl, rfl⟩

/-- C3 (amended): in every execution the side effects that occur are, on the
non-empty `BranchGenerateName` path, a prefix of (branch created, file
committed, pull request created) and, on the empty path, a prefix of (file
committed); and no collaborator operation is invoked more than once. -/
theorem UpdateYAML_effect_order (c : GitClient) (gen : String → String) (input : Input) :
    (effects (UpdateYAML c gen input).1 ∈
      (if input.branchGenerateName = "" then
        [([] : List EffectKind), [.fileCommitted]]
      else
        [[], [.branchCreated], [.branchCreated, .fileCommitted],
         [.branchCreated, .fileCommitted, .pullRequestCreated]]))
    ∧ ∀ k, invocations (UpdateYAML c gen input).1 k ≤ 1 := by
  rcases hgf : c.getFile input.repo input.branch input.filename with e | f
  · refine ⟨?_, fun k => ?_⟩
    · split <;> simp [UpdateYAML, createBranchIfNecessary, createPRIfNecessary, hgf, effects, effectOf]
    · cases k <;> simp [UpdateYAML, createBranchIfNecessary, createPRIfNecessary, hgf, invocations, kindOf]
  · rcases hsb : Syaml.SetBytes f.data input.key input.newValue with _ | u
    · refine ⟨?_, fun k => ?_⟩
      · split <;> simp [UpdateYAML, createBranchIfNecessary, createPRIfNecessary, hgf, hsb, effects, effectOf]
      · cases k <;> simp [UpdateYAML, createBranchIfNecessary, createPRIfNecessary, hgf, hsb, invocations, kindOf]
    · rcases hbh : c.getBranchHead input.repo input.branch with e | ref
      · refine ⟨?_, fun k => ?_⟩
        · split <;> simp [UpdateYAML, createBranchIfNecessary, createPRIfNecessary, hgf, hsb, hbh, effects, effectOf]
        · cases k <;> simp [UpdateYAML, createBranchIfNecessary, createPRIfNecessary, hgf, hsb, hbh, invocations, kindOf]
      · by_cases hb : input.branchGenerateName = ""
        · rcases huf : c.updateFile input.repo input.branch input.filename
              input.commitMessage f.sha u with e | _
          · refine ⟨?_, fun k => ?_⟩
            · simp [UpdateYAML, createBranchIfNecessary, createPRIfNecessary, hgf, hsb, hbh, hb, huf, effects, effectOf]
            · cases k <;> simp [UpdateYAML, createBranchIfNecessary, createPRIfNecessary, hgf, hsb, hbh, hb, huf, invocations, kindOf]
          · refine ⟨?_, fun k => ?_⟩
            · simp [UpdateYAML, createBranchIfNecessary, createPRIfNecessary, hgf, hsb, hbh, hb, huf, effects, effectOf]
            · cases k <;> simp [UpdateYAML, createBranchIfNecessary, createPRIfNecessary, hgf, hsb, hbh, hb, huf, invocations, kindOf]
        · rcases hcb : c.createBranch input.repo (gen input.branchGenerateName) ref with e | _
          · refine ⟨?_, fun k => ?_⟩
            · simp [UpdateYAML, createBranchIfNecessary, createPRIfNecessary, hgf, hsb, hbh, hb, hcb, effects, effectOf]
            · cases k <;> simp [UpdateYAML, createBranchIfNecessary, createPRIfNecessary, hgf, hsb, hbh, hb, hcb, invocations, kindOf]
          · rcases huf : c.updateFile input.repo (gen input.branchGenerateName) input.filename
                input.commitMessage f.sha u with e | _
            · refine ⟨?_, fun k => ?_⟩
              · simp [UpdateYAML, createBranchIfNecessary, createPRIfNecessary, hgf, hsb, hbh, hb, hcb, huf, effects, effectOf]
              · cases k <;> simp [UpdateYAML, createBranchIfNecessary, createPRIfNecessary, hgf, hsb, hbh, hb, hcb, huf, invocations, kindOf]
            · by_cases hpr : input.branch = gen input.branchGenerateName
              · refine ⟨?_, fun k => ?_⟩
                · simp [UpdateYAML, createBranchIfNecessary, createPRIfNecessary, hgf, hsb, hbh, hb, hcb, huf, eq_true hpr, effects, effectOf]
                · cases k <;> simp [UpdateYAML, createBranchIfNecessary, createPRIfNecessary, hgf, hsb, hbh, hb, hcb, huf, eq_true hpr, invocations, kindOf]
              · rcases hcp : c.createPullRequest input.repo
                    ⟨input.pullRequest.title, input.pullRequest.body,
                      gen input.branchGenerateName, input.branch⟩ with e | pr
                · refine ⟨?_, fun k => ?_⟩
                  · simp [UpdateYAML, createBranchIfNecessary, createPRIfNecessary, hgf, hsb, hbh, hb, hcb, huf, hpr, hcp, effects, effectOf]
                  · cases k <;> simp [UpdateYAML, createBranchIfNecessary, createPRIfNecessary, hgf, hsb, hbh, hb, hcb, huf, hpr, hcp, invocations, kindOf]
                · refine ⟨?_, fun k => ?_⟩
                  · simp [UpdateYAML, createBranchIfNecessary, createPRIfNecessary, hgf, hsb, hbh, hb, hcb, huf, hpr, hcp, effects, effectOf]
                  · cases k <;> simp [UpdateYAML, createBranchIfNecessary, createPRIfNecessary, hgf, hsb, hbh, hb, hcb, huf, hpr, hcp, invocations, kindOf]
/-- C3 counterexample: in the direct-commit execution on the test fixture all
collaborator calls succeed and the only side effect is the file commit, which
is not a prefix of the sequence (branch created, file committed, pull request
created) — the first element of that sequence never occurred. -/
theorem UpdateYAML_effects_direct_cex :
    effects (UpdateYAML okClient stubGen directInput).1 ∉
      [([] : List EffectKind), [.branchCreated], [.branchCreated, .fileCommitted],
       [.branchCreated, .fileCommitted, .pullRequestCreated]] := by decide

end Updater

namespace Syaml

theorem mk_data (s : String) : String.mk s.data = s := rfl

theorem ltKey_irrefl : ∀ l : List Char, ltKey l l = false := by
  intro l
  induction l with
  | nil => rfl
  | cons a as ih =>
    rw [ltKey]
    simp [lt_irrefl a, ih]

theorem strLt_irrefl (a : String) : strLt a a = false := ltKey_irrefl a.data

theorem strLt_ne {a b : String} (h : strLt a b = true) : a ≠ b := by
  intro he
  subst he
  rw [strLt_irrefl] at h
  cases h

theorem ltKey_connex : ∀ l1 l2 : List Char, l1 = l2 ∨ ltKey l1 l2 = true ∨ ltKey l2 l1 = true := by
  intro l1
  induction l1 with
  | nil =>
    intro l2
    cases l2 with
    | nil => exact Or.inl rfl
    | cons b bs => exact Or.inr (Or.inl rfl)
  | cons a as ih =>
    intro l2
    cases l2 with
    | nil => exact Or.inr (Or.inr rfl)
    | cons b bs =>
      rcases lt_trichotomy a b with h | h | h
      · refine Or.inr (Or.inl ?_)
        rw [ltKey, if_pos h]
      · subst h
        rcases ih bs with h2 | h2 | h2
        · exact Or.inl (by rw [h2])
        · refine Or.inr (Or.inl ?_)
          rw [ltKey, if_neg (lt_irrefl a), if_neg (lt_irrefl a)]
          exact h2
        · refine Or.inr (Or.inr ?_)
          rw [ltKey, if_neg (lt_irrefl a), if_neg (lt_irrefl a)]
          exact h2
      · refine Or.inr (Or.inr ?_)
        rw [ltKey, if_pos h]

theorem strLt_connex (a b : String) : a = b ∨ strLt a b = true ∨ strLt b a = true := by
  rcases ltKey_connex a.data b.data with h | h | h
  · left
    cases a
    cases b
    exact congrArg String.mk h
  · exact Or.inr (Or.inl h)
  · exact Or.inr (Or.inr h)

theorem leadingSpaces_space (cs : List Char) :
    leadingSpaces (' ' :: cs) = leadingSpaces cs + 1 := rfl

theorem leadingSpaces_other {c : Char} (cs : List Char) (h : c ≠ ' ') :
    leadingSpaces (c :: cs) = 0 := by
  rw [leadingSpaces.eq_def]
  split
  · next cs2 heq =>
    cases heq
    exact absurd rfl h
  · rfl

theorem leadingSpaces_eq_zero (cs : List Char) (h : cs.head? ≠ some ' ') :
    leadingSpaces cs = 0 := by
  cases cs with
  | nil => rfl
  | cons c cs =>
    have hc : c ≠ ' ' := by
      intro hc
      exact h (by simp [hc])
    exact leadingSpaces_other cs hc

theorem leadingSpaces_spacesL (n : Nat) (cs : List Char) :
    leadingSpaces (spacesL n ++ cs) = n + leadingSpaces cs := by
  induction n with
  | zero => simp [spacesL]
  | succ n ih =>
    have : spacesL (n + 1) ++ cs = ' ' :: (spacesL n ++ cs) := by
      simp [spacesL, List.replicate_succ]
    rw [this, leadingSpaces_space, ih]
    omega

theorem leadingSpaces_drop (cs : List Char) :
    (cs.drop (leadingSpaces cs)).head? ≠ some ' ' := by
  induction cs with
  | nil => simp
  | cons c cs ih =>
    by_cases hc : c = ' '
    · subst hc
      rw [leadingSpaces_space]
      simpa using ih
    · rw [leadingSpaces_other cs hc]
      simpa using hc

theorem drop_spacesL (n : Nat) (cs : List Char) : (spacesL n ++ cs).drop n = cs := by
  have h := List.drop_left (spacesL n) cs
  rw [show (spacesL n).length = n from by simp [spacesL]] at h
  exact h

theorem splitColon_append (k r : List Char) (hk : ':' ∉ k) :
    splitColon (k ++ ':' :: r) = some (k, r) := by
  induction k with
  | nil => simp [splitColon]
  | cons c k ih =>
    have hc : c ≠ ':' := fun h => hk (by simp [h])
    have hk2 : ':' ∉ k := fun h => hk (List.mem_cons_of_mem _ h)
    have hc2 : ¬(c = ':') := hc
    simp [splitColon, hc2, ih hk2]

theorem splitColon_inv (cs : List Char) :
    ∀ k r, splitColon cs = some (k, r) → cs = k ++ ':' :: r ∧ ':' ∉ k := by
  induction cs with
  | nil => intro k r h; simp [splitColon] at h
  | cons c cs ih =>
    intro k r h
    by_cases hc : c = ':'
    · subst hc
      simp [splitColon] at h
      obtain ⟨h1, h2⟩ := h
      subst h1; subst h2
      simp
    · rw [splitColon, if_neg hc] at h
      rw [Option.map_eq_some'] at h
      obtain ⟨⟨k1, r1⟩, hp, hf⟩ := h
      obtain ⟨he1, he2⟩ := Prod.mk.injEq .. ▸ hf
      obtain ⟨hcs, hk1⟩ := ih k1 r1 hp
      subst he2
      constructor
      · rw [← he1, hcs]; rfl
      · rw [← he1]
        intro hm
        rcases List.mem_cons.mp hm with h1 | h1
        · exact hc h1.symm
        · exact hk1 h1

theorem splitLinesGo_append (l : List Char) (hl : '\n' ∉ l) (acc rest : List Char) :
    splitLinesGo acc (l ++ '\n' :: rest) =
      (splitLinesGo [] rest).map ((acc.reverse ++ l) :: ·) := by
  induction l generalizing acc with
  | nil => simp [splitLinesGo]
  | cons c l ih =>
    have hc : ¬(c = '\n') := fun h => hl (by simp [h])
    have hl2 : '\n' ∉ l := fun h => hl (List.mem_cons_of_mem _ h)
    rw [List.cons_append, splitLinesGo, if_neg hc, ih hl2 (c :: acc)]
    simp

theorem splitLines_joinLines (L : List (List Char)) (h : ∀ l ∈ L, '\n' ∉ l) :
    splitLines (joinLines L) = some L := by
  induction L with
  | nil => rfl
  | cons l L ih =>
    have h1 : '\n' ∉ l := h l (List.mem_cons_self _ _)
    have h2 : ∀ x ∈ L, '\n' ∉ x := fun x hx => h x (List.mem_cons_of_mem _ hx)
    show splitLinesGo [] (l ++ '\n' :: joinLines L) = some (l :: L)
    rw [splitLinesGo_append l h1 [] (joinLines L)]
    have hrec : splitLinesGo [] (joinLines L) = some L := ih h2
    rw [hrec]
    simp

theorem splitLinesGo_no_newline (cs : List Char) :
    ∀ acc L, splitLinesGo acc cs = some L → '\n' ∉ acc → ∀ l ∈ L, '\n' ∉ l := by
  induction cs with
  | nil =>
    intro acc L h hacc
    by_cases ha : acc.isEmpty
    · rw [splitLinesGo, if_pos ha] at h
      cases h
      simp
    · rw [splitLinesGo, if_neg ha] at h
      cases h
  | cons c cs ih =>
    intro acc L h hacc
    by_cases hc : c = '\n'
    · subst hc
      rw [splitLinesGo, if_pos rfl, Option.map_eq_some'] at h
      obtain ⟨L1, hp, hf⟩ := h
      subst hf
      intro l hl
      rcases List.mem_cons.mp hl with h1 | h1
      · subst h1
        simpa using hacc
      · exact ih [] L1 hp (by simp) l h1
    · rw [splitLinesGo, if_neg hc] at h
      have hacc2 : '\n' ∉ c :: acc := by
        intro hm
        rcases List.mem_cons.mp hm with h1 | h1
        · exact hc h1.symm
        · exact hacc h1
      exact ih (c :: acc) L h hacc2

theorem splitLinesGo_length (cs : List Char) :
    ∀ acc L, splitLinesGo acc cs = some L → L.length ≤ cs.length := by
  induction cs with
  | nil =>
    intro acc L h
    by_cases ha : acc.isEmpty
    · rw [splitLinesGo, if_pos ha] at h
      cases h
      simp
    · rw [splitLinesGo, if_neg ha] at h
      cases h
  | cons c cs ih =>
    intro acc L h
    by_cases hc : c = '\n'
    · subst hc
      rw [splitLinesGo, if_pos rfl, Option.map_eq_some'] at h
      obtain ⟨L1, hp, hf⟩ := h
      subst hf
      have := ih [] L1 hp
      simp
      omega
    · rw [splitLinesGo, if_neg hc] at h
      have := ih (c :: acc) L h
      simp at this ⊢
      omega

theorem splitDotsL_ne_nil (cs : List Char) : splitDotsL cs ≠ [] := by
  cases cs with
  | nil => simp [splitDotsL]
  | cons c cs =>
    rw [splitDotsL]
    by_cases hc : c = '.'
    · simp [hc]
    · rw [if_neg hc]
      cases hs : splitDotsL cs <;> simp

theorem splitDotsL_length (cs : List Char) : (splitDotsL cs).length ≤ cs.length + 1 := by
  induction cs with
  | nil => simp [splitDotsL]
  | cons c cs ih =>
    rw [splitDotsL]
    by_cases hc : c = '.'
    · rw [if_pos hc]
      simp
      omega
    · rw [if_neg hc]
      cases hs : splitDotsL cs with
      | nil => simp
      | cons s ss =>
        rw [hs] at ih
        simp at ih ⊢
        omega

theorem pathComponents_ne_nil (p : String) : pathComponents p ≠ [] := by
  simp [pathComponents, splitDotsL_ne_nil]

theorem pathComponents_length (p : String) :
    (pathComponents p).length ≤ p.data.length + 1 := by
  simpa [pathComponents] using splitDotsL_length p.data

theorem insertBinding_front (k : String) (t : Json) (fs : List (String × Json))
    (h : ltHead k fs) : insertBinding k t fs = (k, t) :: fs := by
  cases fs with
  | nil => rfl
  | cons p fs =>
    obtain ⟨k1, t1⟩ := p
    have hlt : strLt k k1 = true := h
    have hne : ¬(k = k1) := strLt_ne hlt
    simp [insertBinding, hne, hlt]

theorem insertBinding_ne_nil (k : String) (t : Json) (fs : List (String × Json)) :
    insertBinding k t fs ≠ [] := by
  cases fs with
  | nil => simp [insertBinding]
  | cons p fs =>
    obtain ⟨k1, t1⟩ := p
    rw [insertBinding]
    by_cases h1 : k = k1
    · simp [h1]
    · rw [if_neg h1]
      by_cases h2 : strLt k k1 = true <;> simp [h2]

end Syaml

namespace Syaml

theorem canonicalJ_str (s : String) : canonicalJ (.str s) = okValB s := by
  rw [canonicalJ]

theorem canonicalJ_obj (fs : List (String × Json)) :
    canonicalJ (.obj fs) = (!fs.isEmpty && sortedKeysB fs && canonicalFs fs) := by
  rw [canonicalJ]

theorem canonicalFs_nil : canonicalFs [] = true := by rw [canonicalFs]

theorem canonicalFs_cons (k : String) (t : Json) (fs : List (String × Json)) :
    canonicalFs ((k, t) :: fs) = (okKeyB k && canonicalJ t && canonicalFs fs) := by
  rw [canonicalFs]

theorem jdepth_str (s : String) : jdepth (.str s) = 0 := by rw [jdepth]

theorem jdepth_obj (fs : List (String × Json)) : jdepth (.obj fs) = fdepth fs + 1 := by
  rw [jdepth]

theorem fdepth_nil : fdepth [] = 0 := by rw [fdepth]

theorem fdepth_cons (k : String) (t : Json) (fs : List (String × Json)) :
    fdepth ((k, t) :: fs) = max (jdepth t) (fdepth fs) := by
  rw [fdepth]

theorem sortedKeysB_cons_inv {k : String} {t : Json} {fs : List (String × Json)}
    (h : sortedKeysB ((k, t) :: fs) = true) : ltHead k fs ∧ sortedKeysB fs = true := by
  cases fs with
  | nil => exact ⟨trivial, rfl⟩
  | cons p fs =>
    obtain ⟨k1, t1⟩ := p
    rw [sortedKeysB, Bool.and_eq_true] at h
    exact ⟨h.1, h.2⟩

theorem sortedKeysB_cons_of {k : String} {t : Json} {fs : List (String × Json)}
    (h1 : ltHead k fs) (h2 : sortedKeysB fs = true) :
    sortedKeysB ((k, t) :: fs) = true := by
  cases fs with
  | nil => rfl
  | cons p fs =>
    obtain ⟨k1, t1⟩ := p
    rw [sortedKeysB, Bool.and_eq_true]
    exact ⟨h1, h2⟩

theorem ltHead_insertBinding {k1 k : String} (t : Json) (fs : List (String × Json))
    (h1 : ltHead k1 fs) (h2 : strLt k1 k = true) : ltHead k1 (insertBinding k t fs) := by
  cases fs with
  | nil => exact h2
  | cons p fs =>
    obtain ⟨k2, t2⟩ := p
    rw [insertBinding]
    by_cases he : k = k2
    · rw [if_pos he]; exact h1
    · rw [if_neg he]
      by_cases hl : strLt k k2 = true
      · rw [if_pos hl]; exact h2
      · rw [if_neg hl]; exact h1

theorem insertBinding_sorted {k : String} {t : Json} {fs : List (String × Json)}
    (h : sortedKeysB fs = true) : sortedKeysB (insertBinding k t fs) = true := by
  induction fs with
  | nil => rfl
  | cons p fs ih =>
    obtain ⟨k1, t1⟩ := p
    obtain ⟨hh, hs⟩ := sortedKeysB_cons_inv h
    rw [insertBinding]
    by_cases he : k = k1
    · rw [if_pos he]
      exact h
    · rw [if_neg he]
      by_cases hl : strLt k k1 = true
      · rw [if_pos hl]
        exact sortedKeysB_cons_of hl h
      · rw [if_neg hl]
        have hgt : strLt k1 k = true := by
          rcases strLt_connex k k1 with h1 | h1 | h1
          · exact absurd h1 he
          · exact absurd h1 hl
          · exact h1
        exact sortedKeysB_cons_of (ltHead_insertBinding t fs hh hgt) (ih hs)

theorem insertBinding_canonical {k : String} {t : Json} {fs : List (String × Json)}
    (hf : canonicalFs fs = true) (hk : okKeyB k = true) (ht : canonicalJ t = true) :
    canonicalFs (insertBinding k t fs) = true := by
  induction fs with
  | nil =>
    rw [insertBinding, canonicalFs_cons, canonicalFs_nil]
    simp [hk, ht]
  | cons p fs ih =>
    obtain ⟨k1, t1⟩ := p
    rw [canonicalFs_cons, Bool.and_eq_true, Bool.and_eq_true] at hf
    obtain ⟨⟨hk1, ht1⟩, hfs⟩ := hf
    rw [insertBinding]
    by_cases he : k = k1
    · rw [if_pos he, canonicalFs_cons]
      simp [hk1, ht1, hfs]
    · rw [if_neg he]
      by_cases hl : strLt k k1 = true
      · rw [if_pos hl, canonicalFs_cons, canonicalFs_cons]
        simp [hk, ht, hk1, ht1, hfs]
      · rw [if_neg hl, canonicalFs_cons]
        simp [hk1, ht1, ih hfs]

theorem fdepth_insertBinding (k : String) (t : Json) (fs : List (String × Json)) :
    fdepth (insertBinding k t fs) ≤ max (jdepth t) (fdepth fs) := by
  induction fs with
  | nil =>
    rw [insertBinding, fdepth_cons, fdepth_nil]
  | cons p fs ih =>
    obtain ⟨k1, t1⟩ := p
    rw [fdepth_cons, insertBinding]
    by_cases he : k = k1
    · rw [if_pos he, fdepth_cons]
      omega
    · rw [if_neg he]
      by_cases hl : strLt k k1 = true
      · rw [if_pos hl, fdepth_cons, fdepth_cons]
      · rw [if_neg hl, fdepth_cons]
        omega

end Syaml

namespace Syaml

theorem data_mk (l : List Char) : (String.mk l).data = l := rfl

theorem okKeyB_mk (k after : List Char) (h1 : ':' ∉ k)
    (h2 : '\n' ∉ k ++ ':' :: after) (h3 : (k ++ ':' :: after).head? ≠ some ' ') :
    okKeyB (String.mk k) = true := by
  have hn : '\n' ∉ k := fun hm => h2 (List.mem_append_left _ hm)
  rw [okKeyB]
  simp only [Bool.and_eq_true, decide_eq_true_eq, data_mk]
  refine ⟨⟨h1, hn⟩, ?_⟩
  cases k with
  | nil => simp
  | cons c k2 =>
    simp only [List.cons_append, List.head?_cons, ne_eq, Option.some.injEq] at h3 ⊢
    exact h3

theorem okValB_mk (v : List Char) (h : '\n' ∉ v) : okValB (String.mk v) = true := by
  rw [okValB]
  simpa [data_mk] using h

theorem parseBlockF_inv (fuel : Nat) :
    ∀ indent lines fs rem, parseBlockF fuel indent lines = some (fs, rem) →
      (∀ l ∈ lines, '\n' ∉ l) →
      (∃ pre, lines = pre ++ rem) ∧ sortedKeysB fs = true ∧ canonicalFs fs = true ∧
        fdepth fs ≤ lines.length := by
  induction fuel with
  | zero =>
    intro indent lines fs rem h _
    rw [parseBlockF] at h
    cases h
  | succ fuel ih =>
    intro indent lines fs rem h hnl
    cases lines with
    | nil =>
      rw [parseBlockF] at h
      injection h with h
      injection h with h1 h2
      subst h1; subst h2
      exact ⟨⟨[], rfl⟩, rfl, canonicalFs_nil, by rw [fdepth_nil]; omega⟩
    | cons line rest =>
      have hline : '\n' ∉ line := hnl line (List.mem_cons_self _ _)
      have hnlrest : ∀ l ∈ rest, '\n' ∉ l := fun l hl => hnl l (List.mem_cons_of_mem _ hl)
      rw [parseBlockF] at h
      by_cases hind : leadingSpaces line = indent
      · rw [if_pos hind] at h
        split at h
        · cases h
        · -- nested block: splitColon gave some (k, [])
          rename_i k heq
          split at h
          · cases h
          · cases h
          · rename_i s1 subs rem1 hsub
            split at h
            · cases h
            · rename_i fs2 rem2 hrec
              injection h with h
              injection h with hfs hrem
              subst hfs; subst hrem
              obtain ⟨hbody, hkc⟩ := splitColon_inv _ _ _ heq
              obtain ⟨⟨pre1, hpre1⟩, ssub, csub, dsub⟩ := ih _ rest _ _ hsub hnlrest
              have hnlrem1 : ∀ l ∈ rem1, '\n' ∉ l := by
                intro l hl
                exact hnlrest l (hpre1 ▸ List.mem_append_right pre1 hl)
              obtain ⟨⟨pre2, hpre2⟩, srec, crec, drec⟩ := ih _ rem1 _ _ hrec hnlrem1
              have hnb : '\n' ∉ k ++ ':' :: ([] : List Char) := by
                rw [← hbody]
                intro hm
                exact hline (List.drop_subset indent line hm)
              have hhd : (k ++ ':' :: ([] : List Char)).head? ≠ some ' ' := by
                rw [← hbody, ← hind]
                exact leadingSpaces_drop line
              have hkey := okKeyB_mk k [] hkc hnb hhd
              have hsubc : canonicalJ (Json.obj (s1 :: subs)) = true := by
                rw [canonicalJ_obj]
                simp [ssub, csub]
              refine ⟨⟨line :: pre1 ++ pre2, ?_⟩, insertBinding_sorted srec,
                insertBinding_canonical crec hkey hsubc, ?_⟩
              · simp [hpre1, hpre2]
              · have hd := fdepth_insertBinding (String.mk k) (Json.obj (s1 :: subs)) fs2
                rw [jdepth_obj] at hd
                have hlen1 : rem1.length ≤ rest.length := by
                  rw [hpre1]; simp
                simp only [List.length_cons]
                omega
        · -- scalar line: splitColon gave some (k, ' ' :: v)
          rename_i k v heq
          split at h
          · cases h
          · rename_i fs2 rem2 hrec
            injection h with h
            injection h with hfs hrem
            subst hfs; subst hrem
            obtain ⟨hbody, hkc⟩ := splitColon_inv _ _ _ heq
            obtain ⟨⟨pre2, hpre2⟩, srec, crec, drec⟩ := ih _ rest _ _ hrec hnlrest
            have hnb : '\n' ∉ k ++ ':' :: ' ' :: v := by
              rw [← hbody]
              intro hm
              exact hline (List.drop_subset indent line hm)
            have hhd : (k ++ ':' :: ' ' :: v).head? ≠ some ' ' := by
              rw [← hbody, ← hind]
              exact leadingSpaces_drop line
            have hkey := okKeyB_mk k (' ' :: v) hkc hnb hhd
            have hval : canonicalJ (Json.str (String.mk v)) = true := by
              rw [canonicalJ_str]
              refine okValB_mk v ?_
              intro hm
              exact hnb (List.mem_append_right k (by simp [hm]))
            refine ⟨⟨line :: pre2, by simp [hpre2]⟩, insertBinding_sorted srec,
              insertBinding_canonical crec hkey hval, ?_⟩
            have hd := fdepth_insertBinding (String.mk k) (Json.str (String.mk v)) fs2
            rw [jdepth_str] at hd
            simp only [List.length_cons]
            omega
        · cases h
      · rw [if_neg hind] at h
        injection h with h
        injection h with h1 h2
        subst h1; subst h2
        exact ⟨⟨[], rfl⟩, rfl, canonicalFs_nil, by rw [fdepth_nil]; omega⟩

end Syaml

namespace Syaml

theorem fieldLines_nil (indent : Nat) : fieldLines indent [] = [] := by rw [fieldLines]

theorem fieldLines_cons (indent : Nat) (k : String) (t : Json) (fs : List (String × Json)) :
    fieldLines indent ((k, t) :: fs) = jsonLines indent k t ++ fieldLines indent fs := by
  rw [fieldLines]

theorem jsonLines_str (indent : Nat) (k : String) (s : String) :
    jsonLines indent k (.str s) = [spacesL indent ++ k.data ++ ':' :: ' ' :: s.data] := by
  rw [jsonLines]

theorem jsonLines_obj (indent : Nat) (k : String) (gs : List (String × Json)) :
    jsonLines indent k (.obj gs) =
      (spacesL indent ++ k.data ++ [':']) :: fieldLines (indent + 2) gs := by
  rw [jsonLines]

theorem okKeyB_parts {k : String} (h : okKeyB k = true) :
    ':' ∉ k.data ∧ '\n' ∉ k.data ∧ k.data.head? ≠ some ' ' := by
  rw [okKeyB] at h
  simp only [Bool.and_eq_true, decide_eq_true_eq] at h
  exact ⟨h.1.1, h.1.2, h.2⟩

theorem okValB_part {s : String} (h : okValB s = true) : '\n' ∉ s.data := by
  rw [okValB] at h
  simpa using h

theorem canonicalFs_cons_inv {k : String} {t : Json} {fs : List (String × Json)}
    (h : canonicalFs ((k, t) :: fs) = true) :
    okKeyB k = true ∧ canonicalJ t = true ∧ canonicalFs fs = true := by
  rw [canonicalFs_cons] at h
  simp only [Bool.and_eq_true] at h
  exact ⟨h.1.1, h.1.2, h.2⟩

theorem canonicalJ_obj_inv {fs : List (String × Json)} (h : canonicalJ (.obj fs) = true) :
    fs ≠ [] ∧ sortedKeysB fs = true ∧ canonicalFs fs = true := by
  rw [canonicalJ_obj] at h
  simp only [Bool.and_eq_true, Bool.not_eq_true'] at h
  refine ⟨?_, h.1.2, h.2⟩
  intro hnil
  subst hnil
  simp at h

theorem leadingSpaces_keyLine (indent : Nat) {k : String} (rest2 : List Char)
    (hk : okKeyB k = true) :
    leadingSpaces (spacesL indent ++ k.data ++ ':' :: rest2) = indent := by
  obtain ⟨_, _, hh⟩ := okKeyB_parts hk
  rw [List.append_assoc, leadingSpaces_spacesL]
  have : leadingSpaces (k.data ++ ':' :: rest2) = 0 := by
    cases hd : k.data with
    | nil => exact leadingSpaces_other _ (by decide)
    | cons c k2 =>
      have hc : c ≠ ' ' := by
        rw [hd] at hh
        simpa using hh
      exact leadingSpaces_other _ hc
  omega

theorem parseBlockF_nil_eq (fuel indent : Nat) :
    parseBlockF (fuel + 1) indent [] = some ([], []) := by
  rw [parseBlockF]

theorem parseBlockF_stop (fuel indent : Nat) (line : List Char) (rest : List (List Char))
    (h : ¬(leadingSpaces line = indent)) :
    parseBlockF (fuel + 1) indent (line :: rest) = some ([], line :: rest) := by
  rw [parseBlockF, if_neg h]

theorem parseBlockF_scalar_step (fuel indent : Nat) (line : List Char)
    (rest : List (List Char)) (k v : List Char)
    (hls : leadingSpaces line = indent)
    (hsc : splitColon (line.drop indent) = some (k, ' ' :: v)) :
    parseBlockF (fuel + 1) indent (line :: rest) =
      match parseBlockF fuel indent rest with
      | none => none
      | some (fs, rem2) => some (insertBinding (String.mk k) (.str (String.mk v)) fs, rem2) := by
  rw [parseBlockF, if_pos hls, hsc]
  rfl

theorem parseBlockF_nested_step (fuel indent : Nat) (line : List Char)
    (rest : List (List Char)) (k : List Char)
    (hls : leadingSpaces line = indent)
    (hsc : splitColon (line.drop indent) = some (k, [])) :
    parseBlockF (fuel + 1) indent (line :: rest) =
      match parseBlockF fuel (indent + 2) rest with
      | none => none
      | some ([], _) => none
      | some (s1 :: subs, rem) =>
        match parseBlockF fuel indent rem with
        | none => none
        | some (fs, rem2) => some (insertBinding (String.mk k) (.obj (s1 :: subs)) fs, rem2) := by
  rw [parseBlockF, if_pos hls, hsc]

end Syaml

namespace Syaml

theorem fieldLines_no_newline : ∀ n : Nat, ∀ fs : List (String × Json), sizeOf fs ≤ n →
    canonicalFs fs = true → ∀ indent, ∀ l ∈ fieldLines indent fs, '\n' ∉ l := by
  intro n
  induction n with
  | zero =>
    intro fs hs hc indent l hl
    cases fs with
    | nil => rw [fieldLines_nil] at hl; simp at hl
    | cons p fs2 => simp at hs
  | succ n ih =>
    intro fs hs hc indent l hl
    cases fs with
    | nil => rw [fieldLines_nil] at hl; simp at hl
    | cons p fs2 =>
      obtain ⟨k, t⟩ := p
      obtain ⟨hk, ht, hfs2⟩ := canonicalFs_cons_inv hc
      obtain ⟨_, hkn, _⟩ := okKeyB_parts hk
      have hsz : sizeOf fs2 ≤ n := by simp at hs; omega
      rw [fieldLines_cons] at hl
      rcases List.mem_append.mp hl with h1 | h1
      · cases t with
        | str s =>
          rw [jsonLines_str] at h1
          simp only [List.mem_singleton] at h1
          subst h1
          intro hm
          have hv := okValB_part (by rw [canonicalJ_str] at ht; exact ht)
          rcases List.mem_append.mp hm with h2 | h2
          · rcases List.mem_append.mp h2 with h3 | h3
            · rw [spacesL] at h3
              have := List.eq_of_mem_replicate h3
              exact absurd this (by decide)
            · exact hkn h3
          · simp only [List.mem_cons] at h2
            rcases h2 with h3 | h3 | h3
            · exact absurd h3 (by decide)
            · exact absurd h3 (by decide)
            · exact hv h3
        | obj gs =>
          obtain ⟨_, _, hcg⟩ := canonicalJ_obj_inv ht
          rw [jsonLines_obj] at h1
          rcases List.mem_cons.mp h1 with h2 | h2
          · subst h2
            intro hm
            rcases List.mem_append.mp hm with h3 | h3
            · rcases List.mem_append.mp h3 with h4 | h4
              · rw [spacesL] at h4
                have := List.eq_of_mem_replicate h4
                exact absurd this (by decide)
              · exact hkn h4
            · simp only [List.mem_singleton] at h3
              exact absurd h3 (by decide)
          · have hszg : sizeOf gs ≤ n := by simp at hs; omega
            exact ih gs hszg hcg (indent + 2) l h2
      · exact ih fs2 hsz hfs2 indent l h1

theorem restOK_fieldLines (indent : Nat) (fs2 : List (String × Json))
    (rest : List (List Char)) (hc : canonicalFs fs2 = true) (hr : restOK indent rest) :
    restOK (indent + 2) (fieldLines indent fs2 ++ rest) := by
  cases fs2 with
  | nil =>
    rw [fieldLines_nil, List.nil_append]
    cases rest with
    | nil => trivial
    | cons l rest2 =>
      have hlt : leadingSpaces l < indent := hr
      show leadingSpaces l < indent + 2
      omega
  | cons p fs3 =>
    obtain ⟨k2, t2⟩ := p
    obtain ⟨hk2, _, _⟩ := canonicalFs_cons_inv hc
    rw [fieldLines_cons]
    cases t2 with
    | str s =>
      rw [jsonLines_str]
      show leadingSpaces (spacesL indent ++ k2.data ++ ':' :: ' ' :: s.data) < indent + 2
      rw [leadingSpaces_keyLine indent _ hk2]
      omega
    | obj gs =>
      rw [jsonLines_obj]
      show leadingSpaces (spacesL indent ++ k2.data ++ ':' :: []) < indent + 2
      rw [leadingSpaces_keyLine indent _ hk2]
      omega

theorem parseBlockF_render : ∀ fuel : Nat, ∀ fs : List (String × Json),
    ∀ indent : Nat, ∀ rest : List (List Char),
    canonicalFs fs = true → sortedKeysB fs = true → restOK indent rest →
    (fieldLines indent fs).length + rest.length < fuel →
    parseBlockF fuel indent (fieldLines indent fs ++ rest) = some (fs, rest) := by
  intro fuel
  induction fuel with
  | zero => intro fs indent rest _ _ _ hb; omega
  | succ fuel ih =>
    intro fs indent rest hc hs hr hb
    cases fs with
    | nil =>
      rw [fieldLines_nil, List.nil_append]
      cases rest with
      | nil => exact parseBlockF_nil_eq fuel indent
      | cons l rest2 =>
        have hlt : leadingSpaces l < indent := hr
        exact parseBlockF_stop fuel indent l rest2 (by omega)
    | cons p fs2 =>
      obtain ⟨k, t⟩ := p
      obtain ⟨hk, ht, hfs2⟩ := canonicalFs_cons_inv hc
      obtain ⟨hlh, hs2⟩ := sortedKeysB_cons_inv hs
      cases t with
      | str s =>
        have hb2 : (fieldLines indent fs2).length + rest.length < fuel := by
          rw [fieldLines_cons, jsonLines_str] at hb
          simp only [List.length_append, List.length_cons, List.length_nil] at hb
          omega
        rw [fieldLines_cons, jsonLines_str]
        rw [List.append_assoc, List.cons_append, List.nil_append]
        have hls := leadingSpaces_keyLine indent (' ' :: s.data) hk
        have hsc : splitColon ((spacesL indent ++ k.data ++ ':' :: ' ' :: s.data).drop indent)
            = some (k.data, ' ' :: s.data) := by
          rw [List.append_assoc, drop_spacesL]
          exact splitColon_append _ _ (okKeyB_parts hk).1
        rw [parseBlockF_scalar_step fuel indent _ _ _ _ hls hsc]
        rw [ih fs2 indent rest hfs2 hs2 hr hb2]
        show some (insertBinding (String.mk k.data) (Json.str (String.mk s.data)) fs2, rest)
          = some ((k, Json.str s) :: fs2, rest)
        rw [mk_data, mk_data, insertBinding_front k _ fs2 hlh]
      | obj gs =>
        obtain ⟨hgne, hsg, hcg⟩ := canonicalJ_obj_inv ht
        have hb0 := hb
        rw [fieldLines_cons, jsonLines_obj] at hb0
        simp only [List.length_append, List.length_cons] at hb0
        have hb1 : (fieldLines (indent + 2) gs).length +
            (fieldLines indent fs2 ++ rest).length < fuel := by
          simp only [List.length_append]
          omega
        have hb2 : (fieldLines indent fs2).length + rest.length < fuel := by omega
        rw [fieldLines_cons, jsonLines_obj]
        rw [List.append_assoc, List.cons_append]
        have hls : leadingSpaces (spacesL indent ++ k.data ++ [':']) = indent :=
          leadingSpaces_keyLine indent [] hk
        have hsc : splitColon ((spacesL indent ++ k.data ++ [':']).drop indent)
            = some (k.data, []) := by
          rw [List.append_assoc, drop_spacesL]
          exact splitColon_append _ _ (okKeyB_parts hk).1
        rw [parseBlockF_nested_step fuel indent _ _ _ hls hsc]
        have hrest1 : restOK (indent + 2) (fieldLines indent fs2 ++ rest) :=
          restOK_fieldLines indent fs2 rest hfs2 hr
        rw [ih gs (indent + 2) (fieldLines indent fs2 ++ rest) hcg hsg hrest1 hb1]
        cases gs with
        | nil => exact absurd rfl hgne
        | cons g1 gs2 =>
          show (match parseBlockF fuel indent (fieldLines indent fs2 ++ rest) with
            | none => none
            | some (fs, rem2) =>
              some (insertBinding (String.mk k.data) (Json.obj (g1 :: gs2)) fs, rem2))
            = some ((k, Json.obj (g1 :: gs2)) :: fs2, rest)
          rw [ih fs2 indent rest hfs2 hs2 hr hb2]
          show some (insertBinding (String.mk k.data) (Json.obj (g1 :: gs2)) fs2, rest)
            = some ((k, Json.obj (g1 :: gs2)) :: fs2, rest)
          rw [mk_data, insertBinding_front k _ fs2 hlh]

end Syaml

namespace Syaml

theorem fieldLinesF_nil (fuel indent : Nat) : fieldLinesF fuel indent [] = [] := rfl

theorem fieldLinesF_cons (fuel indent : Nat) (k : String) (t : Json)
    (fs : List (String × Json)) :
    fieldLinesF fuel indent ((k, t) :: fs) =
      jsonLinesF fuel indent k t ++ fieldLinesF fuel indent fs := rfl

theorem jsonLinesF_spec : ∀ fuel : Nat, ∀ t : Json, jdepth t < fuel →
    ∀ indent k, jsonLinesF fuel indent k t = jsonLines indent k t := by
  intro fuel
  induction fuel with
  | zero => intro t h; omega
  | succ fuel ih =>
    intro t h indent k
    cases t with
    | str s => rw [jsonLinesF, jsonLines_str]
    | obj gs =>
      rw [jsonLinesF, jsonLines_obj]
      have hd : fdepth gs < fuel := by rw [jdepth_obj] at h; omega
      have hfold : ∀ gs2 : List (String × Json), fdepth gs2 < fuel →
          gs2.foldr (fun p acc => jsonLinesF fuel (indent + 2) p.1 p.2 ++ acc) [] =
            fieldLines (indent + 2) gs2 := by
        intro gs2
        induction gs2 with
        | nil => intro _; rw [fieldLines_nil]; rfl
        | cons p gs3 ihg =>
          intro hd2
          obtain ⟨k2, t2⟩ := p
          rw [fdepth_cons] at hd2
          rw [List.foldr_cons, fieldLines_cons]
          rw [ih t2 (by omega) (indent + 2) k2, ihg (by omega)]
      rw [hfold gs hd]

theorem fieldLinesF_spec (fuel indent : Nat) (fs : List (String × Json))
    (h : fdepth fs < fuel) : fieldLinesF fuel indent fs = fieldLines indent fs := by
  induction fs with
  | nil => rw [fieldLinesF_nil, fieldLines_nil]
  | cons p fs2 ih =>
    obtain ⟨k, t⟩ := p
    rw [fdepth_cons] at h
    rw [fieldLinesF_cons, fieldLines_cons, jsonLinesF_spec fuel t (by omega), ih (by omega)]

theorem renderDocF_spec (fuel : Nat) (t : Json) (h : jdepth t ≤ fuel) :
    renderDocF fuel t = renderDoc t := by
  cases t with
  | str s => rw [renderDocF, renderDoc]
  | obj fs =>
    rw [jdepth_obj] at h
    rw [renderDocF, renderDoc, fieldLinesF_spec fuel 0 fs (by omega)]

theorem jdepth_mkNested (ks : List String) (v : String) :
    jdepth (mkNested ks v) = ks.length := by
  induction ks with
  | nil => rw [mkNested, jdepth_str]; rfl
  | cons k ks ih =>
    rw [mkNested, jdepth_obj, fdepth_cons, fdepth_nil, ih]
    simp only [List.length_cons]
    omega

theorem fdepth_setFields (go : Json → Json) (sub : Json) (k : String) (n : Nat)
    (fs : List (String × Json))
    (hgo : ∀ t1, jdepth (go t1) ≤ max (jdepth t1) n) (hsub : jdepth sub ≤ n) :
    fdepth (setFields go sub k fs) ≤ max (fdepth fs) n := by
  induction fs with
  | nil =>
    rw [setFields, fdepth_cons, fdepth_nil]
    omega
  | cons p fs2 ih =>
    obtain ⟨k1, t1⟩ := p
    rw [setFields]
    by_cases he : k = k1
    · rw [if_pos he, fdepth_cons, fdepth_cons]
      have := hgo t1
      omega
    · rw [if_neg he]
      by_cases hl : strLt k k1 = true
      · rw [if_pos hl, fdepth_cons, fdepth_cons]
        omega
      · rw [if_neg hl, fdepth_cons, fdepth_cons]
        omega

theorem jdepth_jsonSet : ∀ (ks : List String) (t : Json) (v : String),
    jdepth (jsonSet t ks v) ≤ max (jdepth t) ks.length := by
  intro ks
  induction ks with
  | nil =>
    intro t v
    rw [jsonSet, jdepth_str]
    omega
  | cons k ks ih =>
    intro t v
    cases t with
    | str s =>
      rw [jsonSet, jdepth_obj, fdepth_cons, fdepth_nil, jdepth_mkNested]
      simp only [List.length_cons, jdepth_str]
      omega
    | obj fs =>
      rw [jsonSet, jdepth_obj]
      have hsf := fdepth_setFields (fun t1 => jsonSet t1 ks v) (mkNested ks v) k ks.length fs
        (fun t1 => ih t1 v) (by rw [jdepth_mkNested])
      rw [jdepth_obj]
      simp only [List.length_cons]
      omega

theorem parseDoc_inv {y : String} {t : Json} (h : parseDoc y = some t) :
    ∃ fs, t = .obj fs ∧ canonicalJ t = true ∧ jdepth t ≤ y.data.length + 1 := by
  rw [parseDoc] at h
  split at h
  · cases h
  · rename_i lines hsl
    split at h
    · cases h
    · rename_i q fs rem hpb
      split at h
      · rename_i hrem
        split at h
        · cases h
        · rename_i hne
          injection h with h
          subst hrem
          have hnl : ∀ l ∈ lines, '\n' ∉ l :=
            splitLinesGo_no_newline y.data [] lines hsl (by simp)
          obtain ⟨_, hsort, hcanon, hdep⟩ :=
            parseBlockF_inv (lines.length + 1) 0 lines fs [] hpb hnl
          have hlen := splitLinesGo_length y.data [] lines hsl
          have hfs : ¬fs.isEmpty = true := hne
          have hfsne : fs ≠ [] := by
            intro hnil
            subst hnil
            simp at hfs
          refine ⟨fs, h.symm, ?_, ?_⟩
          · rw [← h, canonicalJ_obj]
            simp [hsort, hcanon, hfsne]
          · rw [← h, jdepth_obj]
            omega
      · cases h

theorem SetBytes_some {y : String} {t : Json} (path v : String) (h : parseDoc y = some t) :
    SetBytes y path v = some (renderDoc (jsonSet t (pathComponents path) v)) := by
  obtain ⟨fs, hobj, hcan, hdep⟩ := parseDoc_inv h
  have hd2 : jdepth (jsonSet t (pathComponents path) v) ≤
      y.data.length + path.data.length + 2 := by
    have h1 := jdepth_jsonSet (pathComponents path) t v
    have h2 := pathComponents_length path
    omega
  rw [SetBytes, h, Option.map_some', renderDocF_spec _ _ hd2]

end Syaml

namespace Syaml

theorem sortedKeysB_single (p : String × Json) : sortedKeysB [p] = true := by
  rw [sortedKeysB]

theorem not_isEmpty_of_ne_nil {α : Type} {l : List α} (h : l ≠ []) : (!l.isEmpty) = true := by
  cases l with
  | nil => exact absurd rfl h
  | cons a l => rfl

theorem canonicalJ_mkNested (ks : List String) (v : String)
    (hks : ∀ k ∈ ks, okKeyB k = true) (hv : okValB v = true) :
    canonicalJ (mkNested ks v) = true := by
  induction ks with
  | nil => rw [mkNested, canonicalJ_str]; exact hv
  | cons k ks ih =>
    have hk : okKeyB k = true := hks k (List.mem_cons_self _ _)
    have hks2 : ∀ k2 ∈ ks, okKeyB k2 = true := fun k2 h2 => hks k2 (List.mem_cons_of_mem _ h2)
    rw [mkNested, canonicalJ_obj, canonicalFs_cons, canonicalFs_nil]
    simp [hk, ih hks2, sortedKeysB_single]

theorem ltHead_setFields (go : Json → Json) (sub : Json) {k1 k : String}
    (fs : List (String × Json)) (h1 : ltHead k1 fs) (h2 : strLt k1 k = true) :
    ltHead k1 (setFields go sub k fs) := by
  cases fs with
  | nil => exact h2
  | cons p fs2 =>
    obtain ⟨k2, t2⟩ := p
    rw [setFields]
    by_cases he : k = k2
    · rw [if_pos he]; exact h1
    · rw [if_neg he]
      by_cases hl : strLt k k2 = true
      · rw [if_pos hl]; exact h2
      · rw [if_neg hl]; exact h1

theorem setFields_sorted (go : Json → Json) (sub : Json) (k : String)
    {fs : List (String × Json)} (h : sortedKeysB fs = true) :
    sortedKeysB (setFields go sub k fs) = true := by
  induction fs with
  | nil => rfl
  | cons p fs2 ih =>
    obtain ⟨k1, t1⟩ := p
    obtain ⟨hh, hs2⟩ := sortedKeysB_cons_inv h
    rw [setFields]
    by_cases he : k = k1
    · rw [if_pos he]
      exact sortedKeysB_cons_of hh hs2
    · rw [if_neg he]
      by_cases hl : strLt k k1 = true
      · rw [if_pos hl]
        exact sortedKeysB_cons_of hl (sortedKeysB_cons_of hh hs2)
      · rw [if_neg hl]
        have hgt : strLt k1 k = true := by
          rcases strLt_connex k k1 with hx | hx | hx
          · exact absurd hx he
          · exact absurd hx hl
          · exact hx
        exact sortedKeysB_cons_of (ltHead_setFields go sub fs2 hh hgt) (ih hs2)

theorem setFields_canonical (go : Json → Json) (sub : Json) (k : String)
    {fs : List (String × Json)} (hf : canonicalFs fs = true) (hk : okKeyB k = true)
    (hsub : canonicalJ sub = true)
    (hgo : ∀ t1, canonicalJ t1 = true → canonicalJ (go t1) = true) :
    canonicalFs (setFields go sub k fs) = true := by
  induction fs with
  | nil =>
    rw [setFields, canonicalFs_cons, canonicalFs_nil]
    simp [hk, hsub]
  | cons p fs2 ih =>
    obtain ⟨k1, t1⟩ := p
    obtain ⟨hk1, ht1, hfs2⟩ := canonicalFs_cons_inv hf
    rw [setFields]
    by_cases he : k = k1
    · rw [if_pos he, canonicalFs_cons]
      simp [hk1, hgo t1 ht1, hfs2]
    · rw [if_neg he]
      by_cases hl : strLt k k1 = true
      · rw [if_pos hl, canonicalFs_cons, canonicalFs_cons]
        simp [hk, hsub, hk1, ht1, hfs2]
      · rw [if_neg hl, canonicalFs_cons]
        simp [hk1, ht1, ih hfs2]

theorem setFields_ne_nil (go : Json → Json) (sub : Json) (k : String)
    (fs : List (String × Json)) : setFields go sub k fs ≠ [] := by
  cases fs with
  | nil => simp [setFields]
  | cons p fs2 =>
    obtain ⟨k1, t1⟩ := p
    rw [setFields]
    by_cases he : k = k1
    · simp [he]
    · rw [if_neg he]
      by_cases hl : strLt k k1 = true <;> simp [hl]

theorem jsonSet_canonical : ∀ (ks : List String) (t : Json) (v : String),
    canonicalJ t = true → (∀ k ∈ ks, okKeyB k = true) → okValB v = true →
    canonicalJ (jsonSet t ks v) = true := by
  intro ks
  induction ks with
  | nil =>
    intro t v _ _ hv
    rw [jsonSet, canonicalJ_str]
    exact hv
  | cons k ks ih =>
    intro t v ht hks hv
    have hk : okKeyB k = true := hks k (List.mem_cons_self _ _)
    have hks2 : ∀ k2 ∈ ks, okKeyB k2 = true := fun k2 h2 => hks k2 (List.mem_cons_of_mem _ h2)
    cases t with
    | str s =>
      rw [jsonSet, canonicalJ_obj, canonicalFs_cons, canonicalFs_nil]
      simp [hk, canonicalJ_mkNested ks v hks2 hv, sortedKeysB_single]
    | obj fs =>
      obtain ⟨hne, hsort, hcanon⟩ := canonicalJ_obj_inv ht
      rw [jsonSet, canonicalJ_obj]
      simp only [Bool.and_eq_true]
      exact ⟨⟨not_isEmpty_of_ne_nil (setFields_ne_nil _ _ _ _),
        setFields_sorted _ _ _ hsort⟩,
        setFields_canonical _ _ _ hcanon hk (canonicalJ_mkNested ks v hks2 hv)
          (fun t1 h1 => ih t1 v h1 hks2 hv)⟩

theorem jsonSet_obj_shape (t : Json) (k : String) (ks : List String) (v : String) :
    ∃ gs, jsonSet t (k :: ks) v = .obj gs ∧ gs ≠ [] := by
  cases t with
  | str s => exact ⟨_, by rw [jsonSet], by simp⟩
  | obj fs => exact ⟨_, by rw [jsonSet], setFields_ne_nil _ _ _ _⟩

theorem jsonSet_mkNested (ks : List String) (v : String) :
    jsonSet (mkNested ks v) ks v = mkNested ks v := by
  induction ks with
  | nil => rw [mkNested, jsonSet]
  | cons k ks ih =>
    rw [mkNested, jsonSet, setFields, if_pos rfl]
    show Json.obj [(k, jsonSet (mkNested ks v) ks v)] = Json.obj [(k, mkNested ks v)]
    rw [ih]

theorem setFields_idem (go : Json → Json) (sub : Json) (k : String)
    (hgo2 : ∀ x, go (go x) = go x) (hgs : go sub = sub) :
    ∀ fs, setFields go sub k (setFields go sub k fs) = setFields go sub k fs := by
  intro fs
  induction fs with
  | nil =>
    rw [setFields, setFields, if_pos rfl, hgs]
  | cons p fs2 ih =>
    obtain ⟨k1, t1⟩ := p
    rw [setFields]
    by_cases he : k = k1
    · rw [if_pos he, setFields, if_pos he, hgo2]
    · rw [if_neg he]
      by_cases hl : strLt k k1 = true
      · rw [if_pos hl, setFields, if_pos rfl, hgs]
      · rw [if_neg hl, setFields, if_neg he, if_neg hl, ih]

theorem jsonSet_idem : ∀ (ks : List String) (t : Json) (v : String),
    jsonSet (jsonSet t ks v) ks v = jsonSet t ks v := by
  intro ks
  induction ks with
  | nil => intro t v; rw [jsonSet, jsonSet]
  | cons k ks ih =>
    intro t v
    cases t with
    | str s =>
      rw [jsonSet, jsonSet, setFields, if_pos rfl]
      show Json.obj [(k, jsonSet (mkNested ks v) ks v)] = Json.obj [(k, mkNested ks v)]
      rw [jsonSet_mkNested]
    | obj fs =>
      rw [jsonSet, jsonSet]
      congr 1
      exact setFields_idem _ _ k (fun x => ih x v) (jsonSet_mkNested ks v) fs

theorem parseDoc_renderDoc {fs : List (String × Json)}
    (hc : canonicalJ (.obj fs) = true) :
    parseDoc (renderDoc (.obj fs)) = some (.obj fs) := by
  obtain ⟨hne, hsort, hcanon⟩ := canonicalJ_obj_inv hc
  have hnl : ∀ l ∈ fieldLines 0 fs, '\n' ∉ l :=
    fieldLines_no_newline (sizeOf fs) fs le_rfl hcanon 0
  have hsl : splitLines (joinLines (fieldLines 0 fs)) = some (fieldLines 0 fs) :=
    splitLines_joinLines _ hnl
  have hpb := parseBlockF_render ((fieldLines 0 fs).length + 1) fs 0 [] hcanon hsort
    trivial (by simp)
  rw [List.append_nil] at hpb
  rw [renderDoc, parseDoc, data_mk, hsl]
  show (match parseBlockF ((fieldLines 0 fs).length + 1) 0 (fieldLines 0 fs) with
    | none => none
    | some (fs2, rem) =>
      if rem = [] then (if fs2.isEmpty then none else some (Json.obj fs2)) else none)
    = some (.obj fs)
  rw [hpb]
  show (if ([] : List (List Char)) = [] then
    (if fs.isEmpty then none else some (Json.obj fs)) else none) = some (.obj fs)
  have hise : ¬fs.isEmpty = true := by
    cases fs with
    | nil => exact absurd rfl hne
    | cons p fs2 => simp
  rw [if_pos rfl, if_neg hise]

end Syaml

namespace Syaml

/-- C8: `SetBytes` applied to the document `"test:\n  image: old-image\n"`
with dotted path `"test.image"` and value `"test/my-test-image"` returns the
bytes `"test:\n  image: test/my-test-image\n"` and no error. -/
theorem SetBytes_example :
    SetBytes "test:\n  image: old-image\n" "test.image" "test/my-test-image" =
      some "test:\n  image: test/my-test-image\n" := rfl

/-- C9: `SetBytes` is a stable rewrite: applying it a second time with the
same dotted path and value to the output of a first application reproduces
that output byte for byte.  The document ranges over the embedded
plain-scalar mapping subset (`parseDoc` succeeds), and the path components
and value are plain (`pathOK`, `okValB`) — the real library quote-escapes
beyond this subset. -/
theorem SetBytes_stable (y path v out : String) (t : Json)
    (hp : parseDoc y = some t) (hk : pathOK path = true) (hv : okValB v = true)
    (ho : SetBytes y path v = some out) :
    SetBytes out path v = some out := by
  obtain ⟨fs0, hobj, hcan, _⟩ := parseDoc_inv hp
  have hks : ∀ k ∈ pathComponents path, okKeyB k = true := by
    rw [pathOK] at hk
    intro k hm
    exact List.all_eq_true.mp hk k hm
  have hset : SetBytes y path v = some (renderDoc (jsonSet t (pathComponents path) v)) :=
    SetBytes_some path v hp
  rw [ho] at hset
  injection hset with hout
  have hcanu : canonicalJ (jsonSet t (pathComponents path) v) = true :=
    jsonSet_canonical _ t v hcan hks hv
  obtain ⟨gs, hgs, hgsne⟩ : ∃ gs, jsonSet t (pathComponents path) v = .obj gs ∧ gs ≠ [] := by
    cases hpc : pathComponents path with
    | nil => exact absurd hpc (pathComponents_ne_nil path)
    | cons c cs => exact jsonSet_obj_shape t c cs v
  have hpd : parseDoc out = some (jsonSet t (pathComponents path) v) := by
    rw [hout, hgs]
    exact parseDoc_renderDoc (hgs ▸ hcanu)
  rw [SetBytes_some path v hpd, jsonSet_idem, ← hout]

/-- C9 witness: patching the already-patched test document again with the
same key and value reproduces it exactly. -/
theorem SetBytes_stable_witness :
    SetBytes "test:\n  image: test/my-test-image\n" "test.image" "test/my-test-image" =
      some "test:\n  image: test/my-test-image\n" :=
  SetBytes_stable "test:\n  image: old-image\n" "test.image" "test/my-test-image"
    "test:\n  image: test/my-test-image\n"
    (.obj [("test", .obj [("image", .str "old-image")])]) rfl rfl rfl rfl

/-- C10: the output of `SetBytes` depends only on the parsed structure of the
input: two well-formed documents with the same structured (JSON)
representation yield byte-identical outputs for the same path and value, so
input key order and formatting are not preserved — the output is a canonical
re-serialisation. -/
theorem SetBytes_structural (y1 y2 path v : String) (t : Json)
    (h1 : parseDoc y1 = some t) (h2 : parseDoc y2 = some t) :
    SetBytes y1 path v = SetBytes y2 path v := by
  rw [SetBytes_some path v h1, SetBytes_some path v h2]

/-- C10 witness: two documents with the same bindings in opposite key order
parse to the same structure and give byte-identical `SetBytes` output. -/
theorem SetBytes_structural_witness :
    parseDoc "a: x\nb: y\n" = some (.obj [("a", .str "x"), ("b", .str "y")]) ∧
    parseDoc "b: y\na: x\n" = some (.obj [("a", .str "x"), ("b", .str "y")]) ∧
    SetBytes "a: x\nb: y\n" "a" "z" = SetBytes "b: y\na: x\n" "a" "z" :=
  ⟨rfl, rfl,
    SetBytes_structural "a: x\nb: y\n" "b: y\na: x\n" "a" "z"
      (.obj [("a", .str "x"), ("b", .str "y")]) rfl rfl⟩

end Syaml
